import Mathlib

/-
Verification of the Helios reading front end core: the word tokenizer,
the highlight overlay renderer, the offset-mapping of selections to
segments, and the selection/suggestion lifecycle of the text reader.

Strings are modelled as `List Char`; all Helios text is BMP Greek, so one
JavaScript UTF-16 code unit corresponds to one `Char`.  Numeric fields
(`id`, offsets, pixel geometry) are modelled as `Int`, matching the
integral values these JavaScript numbers take at runtime.
-/

namespace Helios

/-- Whitespace test matching the JavaScript regular-expression class
`\s` (ECMAScript WhiteSpace and LineTerminator code points). -/
def isWsChar (c : Char) : Bool :=
  c = ' ' || c = '\t' || c = '\n' || c.val = 11 || c.val = 12 || c = '\r' ||
  c.val = 0xa0 || c.val = 0x1680 || (0x2000 ≤ c.val && c.val ≤ 0x200a) ||
  c.val = 0x2028 || c.val = 0x2029 || c.val = 0x202f || c.val = 0x205f ||
  c.val = 0x3000 || c.val = 0xfeff

/-- JavaScript `String.prototype.trim`: remove whitespace from both ends. -/
def jsTrim (l : List Char) : List Char :=
  ((l.dropWhile isWsChar).reverse.dropWhile isWsChar).reverse

/-- Clamp a JavaScript slice index to `[0, len]`: negative indices count
from the end of the string, large indices clamp to the length
(ECMAScript `String.prototype.slice` index normalisation). -/
def jsIndex (len : Nat) (i : Int) : Nat :=
  if i < 0 then ((len : Int) + i).toNat else min i.toNat len

/-- JavaScript `str.slice(s, e)`: the characters from normalised index
`s` (inclusive) to normalised index `e` (exclusive), empty when the
normalised start is not before the normalised end. -/
def jsSlice (l : List Char) (s e : Int) : List Char :=
  (l.take (jsIndex l.length e)).drop (jsIndex l.length s)

/-- JavaScript one-argument `str.slice(s)`: the characters from
normalised index `s` to the end of the string. -/
def jsSliceFrom (l : List Char) (s : Int) : List Char :=
  l.drop (jsIndex l.length s)

/-- JavaScript `text.split(/(\s+)/)`: split at maximal whitespace runs,
keeping each captured run in the result between the non-whitespace
pieces, so the result alternates non-whitespace piece, captured
whitespace run, non-whitespace piece, …  The pieces at the two ends may
be empty, exactly as in JavaScript (a leading whitespace run yields a
leading `""`, a trailing one a trailing `""`).  Built right to left: a
whitespace character extends the leading captured run when the split of
the rest starts with an empty piece followed by that run (the rest
starts with whitespace), and otherwise opens a new captured run behind a
new empty leading piece; a non-whitespace character extends the leading
piece. -/
def splitCap : List Char → List (List Char)
  | [] => [[]]
  | c :: cs =>
    let parts := splitCap cs
    if isWsChar c then
      match parts with
      | [] :: s :: rest => [] :: (c :: s) :: rest
      | _ => [] :: [c] :: parts
    else
      match parts with
      | p :: rest => (c :: p) :: rest
      | [] => [[c]]

/-- A token of the word tokenizer: a run of text tagged whitespace or
word (the `renderWords` helper of `HighlightableText`). -/
inductive Token where
  | ws (text : List Char)
  | word (text : List Char)
deriving DecidableEq

/-- The text carried by a token. -/
def Token.text : Token → List Char
  | .ws t => t
  | .word t => t

/-- The word tokenizer `renderWords`: split the run with
`text.split(/(\s+)/)`, then map each piece to a span — a whitespace span
when the piece matches `/\s+/` (contains a whitespace character), no
output for an empty piece, and a clickable word span otherwise. -/
def renderWords (text : List Char) : List Token :=
  (splitCap text).filterMap (fun part =>
    if part.any isWsChar then some (Token.ws part)
    else if part.isEmpty then none
    else some (Token.word part))

/-- The punctuation class `[.,;:!?·\[\]()]` stripped on word click. -/
def isPunctChar (c : Char) : Bool :=
  c = '.' || c = ',' || c = ';' || c = ':' || c = '!' || c = '?' || c = '·' ||
  c = '[' || c = ']' || c = '(' || c = ')'

/-- The cleaning step of `handleWordClick`:
`word.replace(/[.,;:!?·\[\]()]/g, '').trim()` — a global replace deletes
every punctuation character anywhere in the token, then whitespace is
trimmed from both ends. -/
def cleanWord (word : List Char) : List Char :=
  jsTrim (word.filter (fun c => !isPunctChar c))

/-- The reporting decision of `handleWordClick` in the text reader: the
cleaned word is reported (via `setSelectedWord`) unless cleaning leaves
it empty, in which case the handler returns without emitting a click. -/
def handleWordClickReport (word : List Char) : Option (List Char) :=
  let cleaned := cleanWord word
  if cleaned.isEmpty then none else some cleaned

/-- A stored highlight, after the `Highlight` interface of the frontend
type definitions. -/
structure Highlight where
  id : Int
  user_id : Int
  text_id : Int
  segment_id : Int
  start_offset : Int
  end_offset : Int
  selected_text : List Char
  color : List Char
  created_at : List Char
deriving DecidableEq

/-- Comparator order used by
`[...highlights].sort((a, b) => a.start_offset - b.start_offset)`. -/
def hlLe : Highlight → Highlight → Prop :=
  fun a b => a.start_offset ≤ b.start_offset

instance : DecidableRel hlLe := fun _ _ => Int.decLe _ _

instance : IsTotal Highlight hlLe := ⟨fun _ _ => Int.le_total _ _⟩

instance : IsTrans Highlight hlLe := ⟨fun _ _ _ hab hbc => le_trans hab hbc⟩

/-- The `sortedHighlights` computation: JavaScript `Array.prototype.sort`
with the `start_offset` comparator is a stable ascending sort, realised
here by a stable insertion sort. -/
def sortHighlights (hs : List Highlight) : List Highlight :=
  List.insertionSort hlLe hs

/-- A display run emitted by `renderContent`: either a plain text span
(keyed by the `lastIndex` at emission) or a highlighted span carrying
the highlight's id and color. -/
inductive Run where
  | plain (keyIdx : Int) (text : List Char)
  | highlighted (id : Int) (color : List Char) (text : List Char)
deriving DecidableEq

/-- The text of a run, ignoring highlight tagging. -/
def Run.text : Run → List Char
  | .plain _ t => t
  | .highlighted _ _ t => t

/-- State threaded through `renderContent`'s `forEach` loop: the running
cursor `lastIndex`, the emitted elements, and (for stating acceptance
properties) the highlights for which a highlighted span was emitted. -/
structure RState where
  lastIndex : Int
  runs : List Run
  accepted : List Highlight
deriving DecidableEq

/-- One iteration of `renderContent`'s loop over the sorted highlights:
skip the highlight when `start_offset < lastIndex` (overlap) or
`start_offset > content.length` (out of range); otherwise emit the plain
text before it (when non-empty), emit the highlighted span, and advance
the cursor to `end_offset`. -/
def renderStep (content : List Char) (st : RState) (h : Highlight) : RState :=
  if h.start_offset < st.lastIndex then st
  else if h.start_offset > (content.length : Int) then st
  else
    let pre :=
      if h.start_offset > st.lastIndex then
        [Run.plain st.lastIndex (jsSlice content st.lastIndex h.start_offset)]
      else []
    { lastIndex := h.end_offset
      runs := st.runs ++ pre ++
        [Run.highlighted h.id h.color (jsSlice content h.start_offset h.end_offset)]
      accepted := st.accepted ++ [h] }

/-- The loop of `renderContent`: fold `renderStep` over the sorted
highlights starting from cursor `0`. -/
def renderContentSt (content : List Char) (highlights : List Highlight) : RState :=
  (sortHighlights highlights).foldl (renderStep content) ⟨0, [], []⟩

/-- The highlight overlay renderer `renderContent`: the loop's runs
followed by the final plain run for the remaining text, emitted when
`lastIndex < content.length`. -/
def renderContent (content : List Char) (highlights : List Highlight) : List Run :=
  let st := renderContentSt content highlights
  st.runs ++
    (if st.lastIndex < (content.length : Int) then
      [Run.plain st.lastIndex (jsSliceFrom content st.lastIndex)]
    else [])

/-- The highlights accepted into rendering: those for which
`renderContent` emits a highlighted span rather than skipping. -/
def acceptedHighlights (content : List Char) (highlights : List Highlight) :
    List Highlight :=
  (renderContentSt content highlights).accepted

/-- Concatenation of the texts of a run sequence. -/
def concatRuns (rs : List Run) : List Char :=
  rs.foldr (fun r acc => r.text ++ acc) []

/-- JavaScript `s.replace(/\s+/g, ' ')`, character by character: the
flag records being inside a whitespace run for which the single
replacement space was already emitted. -/
def collapseWsAux (inRun : Bool) : List Char → List Char
  | [] => []
  | c :: cs =>
    if isWsChar c then
      if inRun then collapseWsAux true cs
      else ' ' :: collapseWsAux true cs
    else c :: collapseWsAux false cs

/-- JavaScript `s.replace(/\s+/g, ' ')`: collapse every maximal
whitespace run into a single space. -/
def collapseWs (l : List Char) : List Char :=
  collapseWsAux false l

/-- The attributes of one rendered element that matter to the offset
mapper: the parsed `data-segment-id` attribute (outer `none` when the
attribute is absent; inner `none` when its value does not read as a
number, in which case the handler's falsy/NaN guards return), and the
`data-segment-reference` attribute. -/
structure ElemCore where
  segIdAttr : Option (Option Int)
  segRefAttr : Option (List Char)
deriving DecidableEq

/-- A rendered element together with its chain of ancestor elements,
nearest first (the data `Element.closest` walks). -/
structure Elem where
  self : ElemCore
  ancestors : List ElemCore
deriving DecidableEq

/-- Walk a self-then-ancestors chain for the first element carrying a
`data-segment-id` attribute, returning it with its remaining ancestors. -/
def closestAux : List ElemCore → Option (ElemCore × List ElemCore)
  | [] => none
  | c :: rest => if c.segIdAttr.isSome then some (c, rest) else closestAux rest

/-- The `closest('[data-segment-id]')` call: nearest self-or-ancestor
element marked as a segment boundary. -/
def Elem.closestSegment (e : Elem) : Option Elem :=
  (closestAux (e.self :: e.ancestors)).map (fun p => ⟨p.1, p.2⟩)

/-- A DOM node as seen by `getSegmentElement`: either an element or a
non-element (text) node with an optional parent element. -/
inductive DomNode where
  | element (e : Elem)
  | textNode (parentElement : Option Elem)
deriving DecidableEq

/-- The `getSegmentElement` helper of the text reader: `null` input
yields `null`; an element node searches from itself; any other node
searches from its parent element when it has one. -/
def getSegmentElement (node : Option DomNode) : Option Elem :=
  match node with
  | none => none
  | some (.element e) => e.closestSegment
  | some (.textNode p) =>
    match p with
    | some pe => pe.closestSegment
    | none => none

/-- A snapshot of the platform selection (`window.getSelection()`): the
collapsed flag, the selected text (`toString()`), the anchor and focus
nodes, the range count, and the bounding rectangle of the first range
(pixel geometry modelled over `Int`; no claim concerns geometry). -/
structure Sel where
  isCollapsed : Bool
  selString : List Char
  anchorNode : Option DomNode
  focusNode : Option DomNode
  rangeCount : Nat
  rectBottom : Int
  rectLeft : Int
deriving DecidableEq

/-- The world outside the controller: the live platform selection,
`none` when `window.getSelection()` is null or all ranges were removed. -/
structure World where
  selection : Option Sel
deriving DecidableEq

/-- Geometry and scroll state of the scrollable text container. -/
structure ContainerInfo where
  rectTop : Int
  rectLeft : Int
  scrollTop : Int
  scrollLeft : Int
  clientWidth : Int
deriving DecidableEq

/-- A tutor suggestion returned by the gateway (`TranslationSuggestion`);
its confidence is carried opaquely and never computed on. -/
structure TutorSuggestion where
  translation : List Char
  literal_gloss : Option (List Char)
  rationale : List Char
  confidence : Rat
deriving DecidableEq

/-- The payload dispatched by `handleAskTutor` to the gateway, with the
metadata object flattened. -/
structure TutorPayload where
  text_id : Int
  segment_id : Int
  selection : List Char
  language : List Char
  segment_reference : List Char
  selection_length : Int
deriving DecidableEq

/-- A settled gateway response: a suggestion, or an error detail. -/
inductive TutorResponse where
  | ok (d : TutorSuggestion)
  | err (detail : List Char)
deriving DecidableEq

/-- Observable status of the suggestion mutation hook: idle, pending on
a dispatched payload, resolved, or failed. -/
inductive MutStatus where
  | idle
  | pending (p : TutorPayload)
  | success (d : TutorSuggestion)
  | failure (detail : List Char)
deriving DecidableEq

/-- Modelled from the spec: the state of `useTranslationSuggestion`'s
mutation, maintained by the external mutation library (the library is a
dependency, not part of src/).  The observer tracks at most one current
request (`currentReq`); per the spec's lifecycle contract, a `reset`
detaches the observer from the in-flight request and a settling response
is applied only when it belongs to the request still tracked, so a
stale response is discarded without a state transition. -/
structure TutorMut where
  currentReq : Option Nat
  nextReq : Nat
  status : MutStatus
deriving DecidableEq

/-- Modelled from the spec: `reset()` of the mutation hook — return to
idle and stop tracking any in-flight request. -/
def mutReset (m : TutorMut) : TutorMut :=
  { m with currentReq := none, status := .idle }

/-- Modelled from the spec: `mutate(payload)` — dispatch a fresh request
and track it as the current one. -/
def mutStart (m : TutorMut) (p : TutorPayload) : TutorMut × Nat :=
  ({ currentReq := some m.nextReq, nextReq := m.nextReq + 1, status := .pending p },
   m.nextReq)

/-- Modelled from the spec: a gateway response for request `reqId`
settles the mutation only when that request is still the tracked one;
otherwise it is discarded without effect. -/
def mutComplete (m : TutorMut) (reqId : Nat) (res : TutorResponse) : TutorMut :=
  if m.currentReq = some reqId then
    { m with status := match res with
      | .ok d => .success d
      | .err e => .failure e }
  else m

/-- The word selected for analysis (`setSelectedWord` payload). -/
structure SelectedWord where
  word : List Char
  language : List Char
  segmentId : Int
deriving DecidableEq

/-- The pending selection retained by the reader
(`highlightSelection` state): raw text, owning segment, citation
reference, popover anchor position, and container width. -/
structure HighlightSelectionData where
  selection : List Char
  segmentId : Int
  reference : List Char
  posTop : Int
  posLeft : Int
  containerWidth : Int
deriving DecidableEq

/-- The reader component state driving the selection lifecycle. -/
structure ReaderState where
  selectedWord : Option SelectedWord
  highlightSelection : Option HighlightSelectionData
  tutor : TutorMut
deriving DecidableEq

/-- The controller is idle: no pending selection and the suggestion
mutation idle. -/
def controllerIdle (st : ReaderState) : Prop :=
  st.highlightSelection = none ∧ st.tutor.status = .idle

instance (st : ReaderState) : Decidable (controllerIdle st) :=
  inferInstanceAs (Decidable (_ ∧ _))

/-- The feature-flag computation of the text reader:
`String(import.meta.env.VITE_ENABLE_TUTOR ?? 'true').toLowerCase()`
compared against the strings `false` and `0`. -/
def tutorFeatureEnabled (envVal : Option (List Char)) : Bool :=
  let tutorFlag := (envVal.getD (("true").toList)).map Char.toLower
  !(tutorFlag == ("false").toList) && !(tutorFlag == ("0").toList)

/-- Whether the tutor popover is rendered:
`tutorFeatureEnabled && highlightSelection && ...` in the JSX. -/
def popoverShown (flagB : Bool) (st : ReaderState) : Bool :=
  flagB && st.highlightSelection.isSome

/-- The reader's `clearHighlight`: drop the pending selection, reset the
suggestion mutation, and remove all ranges from the platform selection. -/
def clearHighlight (w : World) (st : ReaderState) : World × ReaderState :=
  let _ := w.selection
  ({ selection := none },
   { st with highlightSelection := none, tutor := mutReset st.tutor })

/-- The reader's `handleTextHighlight`, instrumented: the result is the
new world and state plus a flag recording whether execution reached the
offset-mapping walk (`getSegmentElement`).  Guards appear in source
order: feature flag, container ref, null selection, collapsed selection,
empty normalised text, segment lookup via anchor then focus, the
`data-segment-id` attribute and its numeric parse, and the range count;
on success the pending selection is stored and the mutation reset. -/
def handleTextHighlightT (flagB : Bool) (container : Option ContainerInfo)
    (segMapRef : Int → Option (List Char)) (w : World) (st : ReaderState) :
    World × ReaderState × Bool :=
  if flagB = false then (w, st, false)
  else match container with
  | none => (w, st, false)
  | some cont =>
    match w.selection with
    | none => (w, st, false)
    | some sel =>
      if sel.isCollapsed then
        let c := clearHighlight w st
        (c.1, c.2, false)
      else
        let rawText := jsTrim (collapseWs sel.selString)
        if rawText.isEmpty then
          let c := clearHighlight w st
          (c.1, c.2, false)
        else
          match (getSegmentElement sel.anchorNode).orElse
              (fun _ => getSegmentElement sel.focusNode) with
          | none => (w, st, true)
          | some segmentElement =>
            match segmentElement.self.segIdAttr with
            | none => (w, st, true)
            | some parsed =>
              match parsed with
              | none => (w, st, true)
              | some segmentId =>
                let reference :=
                  segmentElement.self.segRefAttr.getD
                    ((segMapRef segmentId).getD [])
                if sel.rangeCount = 0 then (w, st, true)
                else
                  let top := sel.rectBottom - cont.rectTop + cont.scrollTop + 8
                  let left := sel.rectLeft - cont.rectLeft + cont.scrollLeft
                  (w,
                   { st with
                     highlightSelection := some
                       ⟨rawText, segmentId, reference, top, left, cont.clientWidth⟩
                     tutor := mutReset st.tutor },
                   true)

/-- The reader's `handleTextHighlight`, without the instrumentation. -/
def handleTextHighlight (flagB : Bool) (container : Option ContainerInfo)
    (segMapRef : Int → Option (List Char)) (w : World) (st : ReaderState) :
    World × ReaderState :=
  let r := handleTextHighlightT flagB container segMapRef w st
  (r.1, r.2.1)

/-- The reader's `handleAskTutor`: from a retained pending selection,
dispatch the suggestion request with the payload built from the text,
segment, selection and metadata; without one, return unchanged. -/
def handleAskTutor (textId : Int) (language : List Char) (st : ReaderState) :
    ReaderState :=
  match st.highlightSelection with
  | none => st
  | some hl =>
    { st with
      tutor := (mutStart st.tutor
        ⟨textId, hl.segmentId, hl.selection, language, hl.reference,
         (hl.selection.length : Int)⟩).1 }

/-- A gateway response for request `reqId` arriving at the reader: it
settles the mutation via `mutComplete` and touches nothing else. -/
def onTutorResponse (st : ReaderState) (reqId : Nat) (res : TutorResponse) :
    ReaderState :=
  { st with tutor := mutComplete st.tutor reqId res }

/-- The reader's `handleWordClick` (text present): clear the pending
highlight first, then report the cleaned word unless cleaning leaves it
empty. -/
def handleWordClick (w : World) (st : ReaderState) (word : List Char)
    (language : List Char) (segmentId : Int) : World × ReaderState :=
  let c := clearHighlight w st
  match handleWordClickReport word with
  | none => (c.1, c.2)
  | some cleaned =>
    (c.1, { c.2 with selectedWord := some ⟨cleaned, language, segmentId⟩ })

/-- The click guard of a word span in `renderWords`:
`window.getSelection()?.toString().length === 0` must hold for
`onWordClick(part)` to fire; the raw token is reported when it does. -/
def wordClickEmit (w : World) (part : List Char) : Option (List Char) :=
  match w.selection with
  | none => none
  | some s => if s.selString.length = 0 then some part else none

/-- Rendering of the specification's words for the word-click cleaning,
kept for comparison with the code's behaviour: strip the punctuation
characters from both ends only, trim whitespace, report unless empty. -/
def specStripReport (word : List Char) : Option (List Char) :=
  let stripped := ((word.dropWhile isPunctChar).reverse.dropWhile isPunctChar).reverse
  let r := jsTrim stripped
  if r.isEmpty then none else some r

/-- Alternation invariant of `splitCap`'s output, used in the tokenizer
proofs: pieces at non-whitespace positions (flag true) contain no
whitespace character and may be empty; pieces at captured positions
(flag false) are non-empty whitespace runs. -/
def AltParts : Bool → List (List Char) → Prop
  | _, [] => True
  | true, p :: rest => p.all (fun c => !isWsChar c) = true ∧ AltParts false rest
  | false, s :: rest => (s ≠ [] ∧ s.all isWsChar = true) ∧ AltParts true rest

/-- Concrete container geometry for the supersession scenario. -/
def scenContainer : ContainerInfo := ⟨0, 0, 0, 0, 800⟩

/-- Concrete segment-boundary element (segment 1, reference 1.1) for the
supersession scenario. -/
def scenSegElem : Elem := ⟨⟨some (some 1), some (("1.1").toList)⟩, []⟩

/-- Concrete first selection S1 of the supersession scenario. -/
def scenSelS1 : Sel :=
  ⟨false, ("μῆνιν").toList, some (.textNode (some scenSegElem)), none, 1, 10, 20⟩

/-- Concrete superseding selection S2 of the supersession scenario. -/
def scenSelS2 : Sel :=
  ⟨false, ("θεὰ").toList, some (.textNode (some scenSegElem)), none, 1, 30, 40⟩

/-- Initial idle reader state of the supersession scenario. -/
def scenState0 : ReaderState := ⟨none, none, ⟨none, 0, .idle⟩⟩

/-- State after selecting S1: pending selection S1, mutation idle. -/
def scenState1 : ReaderState :=
  (handleTextHighlight true (some scenContainer) (fun _ => none)
    ⟨some scenSelS1⟩ scenState0).2

/-- State after the explicit ask for S1: request 0 dispatched, pending. -/
def scenState2 : ReaderState := handleAskTutor 7 (("grc").toList) scenState1

/-- State after the superseding selection S2 while S1's request is in
flight: pending selection S2, mutation reset. -/
def scenState3 : ReaderState :=
  (handleTextHighlight true (some scenContainer) (fun _ => none)
    ⟨some scenSelS2⟩ scenState2).2

/-- Run-text concatenation distributes over appending run sequences. -/
theorem concatRuns_append (a b : List Run) :
    concatRuns (a ++ b) = concatRuns a ++ concatRuns b := by
  induction a with
  | nil => rfl
  | cons r rs ih =>
    show r.text ++ concatRuns (rs ++ b) = (r.text ++ concatRuns rs) ++ concatRuns b
    rw [ih, List.append_assoc]

/-- At a nonnegative argument, a normalised slice index is the clamp of
its `toNat` to the length. -/
theorem jsIndex_nonneg (len : Nat) (a : Int) (ha : 0 ≤ a) :
    jsIndex len a = min a.toNat len := by
  unfold jsIndex
  rw [if_neg (Int.not_lt.mpr ha)]

/-- Dropping a clamped count from a list no longer than the clamp bound
equals dropping the raw count. -/
theorem drop_clamp (m : List Char) (n len : Nat) (hm : m.length ≤ len) :
    m.drop (min n len) = m.drop n := by
  rcases le_or_lt n len with h | h
  · rw [min_eq_left h]
  · rw [min_eq_right h.le, List.drop_eq_nil_of_le hm,
      List.drop_eq_nil_of_le (hm.trans h.le)]

/-- Gluing a prefix of the content onto the slice that continues it:
for `0 ≤ a ≤ b`, `take a ++ slice(a, b) = take b`. -/
theorem take_append_jsSlice (l : List Char) (a b : Int) (ha : 0 ≤ a) (hab : a ≤ b) :
    l.take a.toNat ++ jsSlice l a b = l.take b.toNat := by
  have hb : 0 ≤ b := ha.trans hab
  have hab' : a.toNat ≤ b.toNat := Int.toNat_le_toNat hab
  unfold jsSlice
  rw [jsIndex_nonneg _ _ ha, jsIndex_nonneg _ _ hb]
  rw [drop_clamp _ _ _ (by rw [List.length_take]; omega)]
  have htake : l.take a.toNat = (l.take (min b.toNat l.length)).take a.toNat := by
    rw [List.take_take]
    apply List.take_eq_take.mpr
    omega
  rw [htake, List.take_append_drop]
  apply List.take_eq_take.mpr
  omega

/-- The final plain run's text continues the content from a nonnegative
cursor: `take c ++ slice(c) = content` for `0 ≤ c`. -/
theorem take_append_jsSliceFrom (l : List Char) (a : Int) (ha : 0 ≤ a) :
    l.take a.toNat ++ jsSliceFrom l a = l := by
  unfold jsSliceFrom
  rw [jsIndex_nonneg _ _ ha, drop_clamp _ _ _ (le_refl _), List.take_append_drop]

/-- Loop invariant of `renderContent` for a start-before-end highlight:
one `renderStep` keeps the cursor nonnegative and keeps the emitted text
equal to the content prefix up to the cursor. -/
theorem renderStep_concat (content : List Char) (st : RState) (h : Highlight)
    (hse : h.start_offset ≤ h.end_offset) (h0 : 0 ≤ st.lastIndex)
    (hinv : concatRuns st.runs = content.take st.lastIndex.toNat) :
    0 ≤ (renderStep content st h).lastIndex ∧
    concatRuns (renderStep content st h).runs =
      content.take (renderStep content st h).lastIndex.toNat := by
  unfold renderStep
  split_ifs with h1 h2 h3
  · exact ⟨h0, hinv⟩
  · exact ⟨h0, hinv⟩
  · refine ⟨show (0:Int) ≤ h.end_offset by omega, ?_⟩
    show concatRuns (st.runs ++ [Run.plain st.lastIndex
        (jsSlice content st.lastIndex h.start_offset)] ++
        [Run.highlighted h.id h.color
          (jsSlice content h.start_offset h.end_offset)]) =
      content.take h.end_offset.toNat
    rw [concatRuns_append, concatRuns_append, hinv]
    show (content.take st.lastIndex.toNat ++
        (jsSlice content st.lastIndex h.start_offset ++ [])) ++
        (jsSlice content h.start_offset h.end_offset ++ []) =
      content.take h.end_offset.toNat
    rw [List.append_nil, List.append_nil,
      take_append_jsSlice content st.lastIndex h.start_offset h0 (by omega),
      take_append_jsSlice content h.start_offset h.end_offset (by omega) hse]
  · refine ⟨show (0:Int) ≤ h.end_offset by omega, ?_⟩
    have hcur : st.lastIndex = h.start_offset := by omega
    show concatRuns (st.runs ++ [] ++ [Run.highlighted h.id h.color
        (jsSlice content h.start_offset h.end_offset)]) =
      content.take h.end_offset.toNat
    rw [concatRuns_append, concatRuns_append, hinv, hcur]
    show (content.take h.start_offset.toNat ++ ([] : List Char)) ++
        (jsSlice content h.start_offset h.end_offset ++ []) =
      content.take h.end_offset.toNat
    rw [List.append_nil, List.append_nil,
      take_append_jsSlice content h.start_offset h.end_offset (by omega) hse]

/-- Loop invariant of `renderContent` over a whole highlight list whose
members all start no later than they end. -/
theorem renderFold_concat (content : List Char) (hs : List Highlight) :
    ∀ (st : RState), (∀ h ∈ hs, h.start_offset ≤ h.end_offset) →
      0 ≤ st.lastIndex →
      concatRuns st.runs = content.take st.lastIndex.toNat →
      0 ≤ (hs.foldl (renderStep content) st).lastIndex ∧
      concatRuns (hs.foldl (renderStep content) st).runs =
        content.take (hs.foldl (renderStep content) st).lastIndex.toNat := by
  induction hs with
  | nil => exact fun st _ h0 hinv => ⟨h0, hinv⟩
  | cons h t ih =>
    intro st hse h0 hinv
    simp only [List.foldl_cons]
    have hstep := renderStep_concat content st h
      (hse h (List.mem_cons_self h t)) h0 hinv
    exact ih _ (fun x hx => hse x (List.mem_cons_of_mem _ hx)) hstep.1 hstep.2

/-- C1 (counterexample): the round trip fails for an interval whose end
offset precedes its start offset — for content `abc` and the single
interval `[2, 1)`, the emitted run texts concatenate to `abbc`, not
`abc` (the cursor moves backwards to `1` and the character `b` is
emitted twice). -/
theorem helios_c1_counterexample :
    concatRuns (renderContent (("abc").toList)
        [⟨1, 1, 1, 1, 2, 1, [], ("yellow").toList, []⟩]) = ("abbc").toList ∧
    concatRuns (renderContent (("abc").toList)
        [⟨1, 1, 1, 1, 2, 1, [], ("yellow").toList, []⟩]) ≠ ("abc").toList := by
  constructor
  · decide
  · decide

/-- C1 (amended): for every content string and every list of highlight
intervals in which each interval's start offset is at most its end
offset — offsets may still be out of range, overlapping, or adjacent —
concatenating in order the texts of all runs emitted by `renderContent`,
ignoring highlight tagging, equals the content string exactly. -/
theorem helios_c1_amended (content : List Char) (highlights : List Highlight)
    (hse : ∀ h ∈ highlights, h.start_offset ≤ h.end_offset) :
    concatRuns (renderContent content highlights) = content := by
  have hperm := List.perm_insertionSort hlLe highlights
  have hse' : ∀ h ∈ sortHighlights highlights, h.start_offset ≤ h.end_offset :=
    fun h hh => hse h (hperm.mem_iff.mp hh)
  have hfold := renderFold_concat content (sortHighlights highlights)
    ⟨0, [], []⟩ hse' (le_refl 0) rfl
  unfold renderContent renderContentSt
  unfold renderContentSt at hfold
  rw [concatRuns_append]
  split_ifs with hlt
  · show concatRuns _ ++ (jsSliceFrom content _ ++ []) = content
    rw [List.append_nil, hfold.2, take_append_jsSliceFrom content _ hfold.1]
  · show concatRuns _ ++ ([] : List Char) = content
    rw [List.append_nil, hfold.2]
    apply List.take_of_length_le
    omega

/-- C1 (witness): a concrete list with overlapping, adjacent and
out-of-range intervals, all start-before-end, round-trips exactly. -/
theorem helios_c1_witness :
    (∀ h ∈ [(⟨1, 1, 1, 1, 0, 2, ("ab").toList, ("yellow").toList, []⟩ : Highlight),
            ⟨2, 1, 1, 1, 1, 3, ("bc").toList, ("green").toList, []⟩,
            ⟨3, 1, 1, 1, 5, 9, [], ("pink").toList, []⟩],
        h.start_offset ≤ h.end_offset) ∧
    concatRuns (renderContent (("abc").toList)
        [⟨1, 1, 1, 1, 0, 2, ("ab").toList, ("yellow").toList, []⟩,
         ⟨2, 1, 1, 1, 1, 3, ("bc").toList, ("green").toList, []⟩,
         ⟨3, 1, 1, 1, 5, 9, [], ("pink").toList, []⟩]) = ("abc").toList :=
  ⟨by decide, helios_c1_amended (("abc").toList) _ (by decide)⟩

/-- C2: an interval whose start offset is below the running cursor is
excluded — the loop step leaves the state untouched, emitting no run for
it — while the input interval list itself is never modified by
rendering; concretely, on `μῆνιν ἄειδε θεὰ` the list `[[0,5), [3,8)]`
renders exactly as `[[0,5)]` alone, and the dropped interval is still a
member of the stored list. -/
theorem helios_c2 :
    (∀ (content : List Char) (st : RState) (h : Highlight),
      h.start_offset < st.lastIndex → renderStep content st h = st) ∧
    renderContent (("μῆνιν ἄειδε θεὰ").toList)
        [⟨1, 1, 1, 1, 0, 5, ("μῆνιν").toList, ("yellow").toList, []⟩,
         ⟨2, 1, 1, 1, 3, 8, ("ιν ἄε").toList, ("green").toList, []⟩] =
      renderContent (("μῆνιν ἄειδε θεὰ").toList)
        [⟨1, 1, 1, 1, 0, 5, ("μῆνιν").toList, ("yellow").toList, []⟩] ∧
    (⟨2, 1, 1, 1, 3, 8, ("ιν ἄε").toList, ("green").toList, []⟩ : Highlight) ∈
      [(⟨1, 1, 1, 1, 0, 5, ("μῆνιν").toList, ("yellow").toList, []⟩ : Highlight),
       ⟨2, 1, 1, 1, 3, 8, ("ιν ἄε").toList, ("green").toList, []⟩] := by
  refine ⟨?_, by decide, by decide⟩
  intro content st h hlt
  unfold renderStep
  rw [if_pos hlt]

/-- C2 (witness): the overlap-exclusion step at the cursor reached after
the first interval of the scenario leaves the loop state unchanged. -/
theorem helios_c2_witness :
    renderStep (("μῆνιν ἄειδε θεὰ").toList) ⟨5, [], []⟩
      ⟨2, 1, 1, 1, 3, 8, ("ιν ἄε").toList, ("green").toList, []⟩ = ⟨5, [], []⟩ :=
  helios_c2.1 _ _ _ (by decide)

/-- C9: clearing from any controller state yields the idle controller —
no pending selection, suggestion mutation reset, platform selection
collapsed, popover hidden — and a second consecutive clear changes
nothing. -/
theorem helios_c9 :
    ∀ (w : World) (st : ReaderState) (flagB : Bool),
      controllerIdle (clearHighlight w st).2 ∧
      (clearHighlight w st).1.selection = none ∧
      clearHighlight (clearHighlight w st).1 (clearHighlight w st).2 =
        clearHighlight w st ∧
      popoverShown flagB (clearHighlight w st).2 = false := by
  intro w st flagB
  refine ⟨⟨rfl, rfl⟩, rfl, rfl, ?_⟩
  simp [popoverShown, clearHighlight]

/-- C10: a word-span click is reported only while the platform selection
text is empty — a non-empty live selection suppresses the callback, and
any reported click implies the selection existed with empty text and
carried the raw token. -/
theorem helios_c10 :
    (∀ (s : Sel) (part : List Char), s.selString ≠ [] →
      wordClickEmit ⟨some s⟩ part = none) ∧
    (∀ (w : World) (part reported : List Char),
      wordClickEmit w part = some reported →
      reported = part ∧ ∃ s, w.selection = some s ∧ s.selString = []) := by
  constructor
  · intro s part hne
    show (if s.selString.length = 0 then some part else none) = none
    rw [if_neg]
    intro hz
    exact hne (List.length_eq_zero.mp hz)
  · intro w part reported hemit
    match hw : w.selection with
    | none =>
      unfold wordClickEmit at hemit
      rw [hw] at hemit
      cases hemit
    | some s =>
      unfold wordClickEmit at hemit
      rw [hw] at hemit
      have hemit' : (if s.selString.length = 0 then some part else none) =
          some reported := hemit
      by_cases hz : s.selString.length = 0
      · rw [if_pos hz] at hemit'
        cases hemit'
        exact ⟨rfl, s, rfl, List.length_eq_zero.mp hz⟩
      · rw [if_neg hz] at hemit'
        cases hemit'

/-- C6: while the tutor feature flag computes to disabled, a selection
event leaves the handler at its first guard — the world and state are
returned untouched, the offset-mapping walk is never reached, and no
popover is shown. -/
theorem helios_c6 (envVal : Option (List Char))
    (hflag : tutorFeatureEnabled envVal = false) :
    ∀ (container : Option ContainerInfo) (segMapRef : Int → Option (List Char))
      (w : World) (st : ReaderState),
      handleTextHighlightT (tutorFeatureEnabled envVal) container segMapRef w st =
        (w, st, false) ∧
      popoverShown (tutorFeatureEnabled envVal) st = false := by
  intro container segMapRef w st
  rw [hflag]
  constructor
  · unfold handleTextHighlightT
    rw [if_pos rfl]
  · simp [popoverShown]

/-- C6 (witness): with `VITE_ENABLE_TUTOR=false` the flag computes to
disabled and a concrete selection event is a strict no-op with the
mapper not invoked. -/
theorem helios_c6_witness :
    tutorFeatureEnabled (some (("false").toList)) = false ∧
    handleTextHighlightT (tutorFeatureEnabled (some (("false").toList))) none
        (fun _ => none) ⟨none⟩ ⟨none, none, ⟨none, 0, .idle⟩⟩ =
      (⟨none⟩, ⟨none, none, ⟨none, 0, .idle⟩⟩, false) :=
  ⟨by decide,
   (helios_c6 (some (("false").toList)) (by decide) none (fun _ => none)
     ⟨none⟩ ⟨none, none, ⟨none, 0, .idle⟩⟩).1⟩

/-- C10 (witness): with the live selection holding the non-empty text
`x`, clicking the word `λόγος` emits nothing. -/
theorem helios_c10_witness :
    (("x").toList ≠ ([] : List Char)) ∧
    wordClickEmit ⟨some ⟨false, ("x").toList, none, none, 1, 0, 0⟩⟩
      (("λόγος").toList) = none :=
  ⟨by decide, helios_c10.1 ⟨false, ("x").toList, none, none, 1, 0, 0⟩
    (("λόγος").toList) (by decide)⟩

/-- C7 (counterexample): a selection spanning two segments is not a
mapping failure — anchored in segment 1 with its focus in segment 2, the
handler still produces a selection context, attributed to segment 1. -/
theorem helios_c7_counterexample :
    (handleTextHighlight true (some ⟨0, 0, 0, 0, 800⟩) (fun _ => none)
        ⟨some ⟨false, ("νιν ἄ").toList,
          some (.textNode (some ⟨⟨some (some 1), some (("1.1").toList)⟩, []⟩)),
          some (.textNode (some ⟨⟨some (some 2), some (("1.2").toList)⟩, []⟩)),
          1, 10, 20⟩⟩
        ⟨none, none, ⟨none, 0, .idle⟩⟩).2.highlightSelection =
      some ⟨("νιν ἄ").toList, 1, ("1.1").toList, 18, 20, 800⟩ := by
  decide

/-- C7 (amended): the offset mapper fails — the handler returns with no
selection context and no other effect — when neither the selection's
anchor nor its focus yields a segment-boundary ancestor; when the
anchor's walk succeeds (its segment id attribute parsing, with a live
range) the context is created and attributed to the anchor's segment,
and when the anchor's walk fails but the focus's succeeds, to the
focus's segment.  In particular a multi-segment selection is not
detected and not treated as a failure. -/
theorem helios_c7_amended :
    (∀ (flagB : Bool) (container : Option ContainerInfo)
       (segMapRef : Int → Option (List Char)) (w : World) (st : ReaderState)
       (sel : Sel),
       w.selection = some sel →
       sel.isCollapsed = false →
       jsTrim (collapseWs sel.selString) ≠ [] →
       getSegmentElement sel.anchorNode = none →
       getSegmentElement sel.focusNode = none →
       handleTextHighlight flagB container segMapRef w st = (w, st)) ∧
    (∀ (cont : ContainerInfo) (segMapRef : Int → Option (List Char))
       (w : World) (st : ReaderState) (sel : Sel) (e : Elem) (sid : Int),
       w.selection = some sel →
       sel.isCollapsed = false →
       jsTrim (collapseWs sel.selString) ≠ [] →
       getSegmentElement sel.anchorNode = some e →
       e.self.segIdAttr = some (some sid) →
       sel.rangeCount ≠ 0 →
       handleTextHighlight true (some cont) segMapRef w st =
         (w, { st with
               highlightSelection := some
                 ⟨jsTrim (collapseWs sel.selString), sid,
                  e.self.segRefAttr.getD ((segMapRef sid).getD []),
                  sel.rectBottom - cont.rectTop + cont.scrollTop + 8,
                  sel.rectLeft - cont.rectLeft + cont.scrollLeft,
                  cont.clientWidth⟩
               tutor := mutReset st.tutor })) ∧
    (∀ (cont : ContainerInfo) (segMapRef : Int → Option (List Char))
       (w : World) (st : ReaderState) (sel : Sel) (e : Elem) (sid : Int),
       w.selection = some sel →
       sel.isCollapsed = false →
       jsTrim (collapseWs sel.selString) ≠ [] →
       getSegmentElement sel.anchorNode = none →
       getSegmentElement sel.focusNode = some e →
       e.self.segIdAttr = some (some sid) →
       sel.rangeCount ≠ 0 →
       handleTextHighlight true (some cont) segMapRef w st =
         (w, { st with
               highlightSelection := some
                 ⟨jsTrim (collapseWs sel.selString), sid,
                  e.self.segRefAttr.getD ((segMapRef sid).getD []),
                  sel.rectBottom - cont.rectTop + cont.scrollTop + 8,
                  sel.rectLeft - cont.rectLeft + cont.scrollLeft,
                  cont.clientWidth⟩
               tutor := mutReset st.tutor })) := by
  refine ⟨?_, ?_, ?_⟩
  · intro flagB container segMapRef w st sel hw hcol hraw hanc hfoc
    have hraw' : (jsTrim (collapseWs sel.selString)).isEmpty = false :=
      List.isEmpty_eq_false.mpr hraw
    unfold handleTextHighlight handleTextHighlightT
    by_cases hf : flagB = false
    · rw [if_pos hf]
    · rw [if_neg hf]
      match container with
      | none => rfl
      | some cont =>
        rw [hw]
        simp only [hcol, hraw', hanc, hfoc, Option.orElse, Bool.false_eq_true,
          if_false]
  · intro cont segMapRef w st sel e sid hw hcol hraw hanc hattr hrc
    have hraw' : (jsTrim (collapseWs sel.selString)).isEmpty = false :=
      List.isEmpty_eq_false.mpr hraw
    unfold handleTextHighlight handleTextHighlightT
    rw [hw]
    simp only [hcol, hraw', hanc, hattr, Option.orElse, Bool.false_eq_true,
      if_false, if_neg hrc]
    rfl
  · intro cont segMapRef w st sel e sid hw hcol hraw hanc hfoc hattr hrc
    have hraw' : (jsTrim (collapseWs sel.selString)).isEmpty = false :=
      List.isEmpty_eq_false.mpr hraw
    unfold handleTextHighlight handleTextHighlightT
    rw [hw]
    simp only [hcol, hraw', hanc, hfoc, hattr, Option.orElse,
      Bool.false_eq_true, if_false, if_neg hrc]
    rfl

/-- Acceptance invariant of `renderContent`'s loop over a list sorted by
start offset: every highlight accepted into rendering has a start offset
between `0` and the content length.  The disjunctive side condition
covers a cursor pushed negative by a malformed accepted end offset: the
sortedness then keeps all remaining start offsets nonnegative. -/
theorem renderFold_accepted (content : List Char) (hs : List Highlight) :
    ∀ (st : RState), List.Pairwise hlLe hs →
      (∀ h ∈ st.accepted,
        0 ≤ h.start_offset ∧ h.start_offset ≤ (content.length : Int)) →
      (0 ≤ st.lastIndex ∨ ∀ h ∈ hs, 0 ≤ h.start_offset) →
      ∀ h ∈ (hs.foldl (renderStep content) st).accepted,
        0 ≤ h.start_offset ∧ h.start_offset ≤ (content.length : Int) := by
  induction hs with
  | nil => exact fun st _ hacc _ => hacc
  | cons h t ih =>
    intro st hpw hacc hdisj
    have hpw' := List.pairwise_cons.mp hpw
    simp only [List.foldl_cons]
    by_cases h1 : h.start_offset < st.lastIndex
    · have hskip : renderStep content st h = st := by
        unfold renderStep
        rw [if_pos h1]
      rw [hskip]
      refine ih st hpw'.2 hacc ?_
      rcases hdisj with hd | hd
      · exact Or.inl hd
      · exact Or.inr (fun x hx => hd x (List.mem_cons_of_mem _ hx))
    · by_cases h2 : h.start_offset > (content.length : Int)
      · have hskip : renderStep content st h = st := by
          unfold renderStep
          rw [if_neg h1, if_pos h2]
        rw [hskip]
        refine ih st hpw'.2 hacc ?_
        rcases hdisj with hd | hd
        · exact Or.inl hd
        · exact Or.inr (fun x hx => hd x (List.mem_cons_of_mem _ hx))
      · have hs0 : 0 ≤ h.start_offset := by
          rcases hdisj with hd | hd
          · omega
          · exact hd h (List.mem_cons_self h t)
        have hsl : h.start_offset ≤ (content.length : Int) := by omega
        refine ih (renderStep content st h) hpw'.2 ?_ ?_
        · intro x hx
          have hxacc : x ∈ st.accepted ++ [h] := by
            have hstep : (renderStep content st h).accepted =
                st.accepted ++ [h] := by
              unfold renderStep
              rw [if_neg h1, if_neg h2]
            rw [← hstep]
            exact hx
          rcases List.mem_append.mp hxacc with hxs | hxh
          · exact hacc x hxs
          · rw [List.mem_singleton.mp hxh]
            exact ⟨hs0, hsl⟩
        · rcases le_or_lt 0 h.end_offset with he | he
          · left
            have hstep : (renderStep content st h).lastIndex = h.end_offset := by
              unfold renderStep
              rw [if_neg h1, if_neg h2]
            rw [hstep]
            exact he
          · right
            intro x hx
            exact le_trans hs0 (hpw'.1 x hx)

/-- C3 (counterexample): acceptance checks only the start offset — on
content `abc` the intervals `[2, 1)` and `[2, 9)` are both accepted into
rendering although the first has its end before its start and the second
ends past the content length. -/
theorem helios_c3_counterexample :
    acceptedHighlights (("abc").toList)
        [⟨1, 1, 1, 1, 2, 1, [], ("yellow").toList, []⟩,
         ⟨2, 1, 1, 1, 2, 9, [], ("green").toList, []⟩] =
      [⟨1, 1, 1, 1, 2, 1, [], ("yellow").toList, []⟩,
       ⟨2, 1, 1, 1, 2, 9, [], ("green").toList, []⟩] ∧
    ¬((⟨1, 1, 1, 1, 2, 1, [], ("yellow").toList, []⟩ : Highlight).start_offset <
        (⟨1, 1, 1, 1, 2, 1, [], ("yellow").toList, []⟩ : Highlight).end_offset) ∧
    ¬((⟨2, 1, 1, 1, 2, 9, [], ("green").toList, []⟩ : Highlight).end_offset ≤
        ((("abc").toList).length : Int)) := by
  refine ⟨by decide, by decide, by decide⟩

/-- C3 (amended): every interval accepted into rendering satisfies
`0 ≤ startOffset ≤ length(content)`; the renderer validates nothing
about the end offset, so `startOffset < endOffset` and
`endOffset ≤ length(content)` can both fail for accepted intervals. -/
theorem helios_c3_amended (content : List Char) (highlights : List Highlight) :
    ∀ h ∈ acceptedHighlights content highlights,
      0 ≤ h.start_offset ∧ h.start_offset ≤ (content.length : Int) := by
  have hsorted : List.Pairwise hlLe (sortHighlights highlights) :=
    List.sorted_insertionSort hlLe highlights
  unfold acceptedHighlights renderContentSt
  exact renderFold_accepted content (sortHighlights highlights) ⟨0, [], []⟩
    hsorted (fun h hh => absurd hh (List.not_mem_nil h)) (Or.inl (le_refl 0))

/-- C3 (witness): the accepted interval `[0, 4)` on `abc` (out of range
at its end) indeed has its start offset within bounds. -/
theorem helios_c3_witness :
    ((⟨1, 1, 1, 1, 0, 4, [], ("pink").toList, []⟩ : Highlight) ∈
      acceptedHighlights (("abc").toList)
        [⟨1, 1, 1, 1, 0, 4, [], ("pink").toList, []⟩]) ∧
    (0 ≤ (⟨1, 1, 1, 1, 0, 4, [], ("pink").toList, []⟩ : Highlight).start_offset ∧
      (⟨1, 1, 1, 1, 0, 4, [], ("pink").toList, []⟩ : Highlight).start_offset ≤
        ((("abc").toList).length : Int)) :=
  ⟨by decide, helios_c3_amended (("abc").toList)
    [⟨1, 1, 1, 1, 0, 4, [], ("pink").toList, []⟩]
    ⟨1, 1, 1, 1, 0, 4, [], ("pink").toList, []⟩ (by decide)⟩

/-- C8: a gateway response whose request is no longer the tracked one is
discarded without any state change; in particular every response is
stale after a clear, and in the supersession scenario — S1 asked
(request 0 pending), then S2 selected before the response — S1's late
response leaves the state untouched and the S2 display intact. -/
theorem helios_c8 :
    (∀ (st : ReaderState) (reqId : Nat) (res : TutorResponse),
      st.tutor.currentReq ≠ some reqId → onTutorResponse st reqId res = st) ∧
    (∀ (w : World) (st : ReaderState) (reqId : Nat) (res : TutorResponse),
      onTutorResponse (clearHighlight w st).2 reqId res =
        (clearHighlight w st).2) ∧
    scenState2.tutor.currentReq = some 0 ∧
    onTutorResponse scenState3 0
        (.ok ⟨("wrath").toList, none, ("sing the wrath").toList, 1⟩) =
      scenState3 ∧
    scenState3.highlightSelection =
      some ⟨("θεὰ").toList, 1, ("1.1").toList, 38, 40, 800⟩ := by
  have general : ∀ (st : ReaderState) (reqId : Nat) (res : TutorResponse),
      st.tutor.currentReq ≠ some reqId → onTutorResponse st reqId res = st := by
    intro st reqId res hne
    unfold onTutorResponse mutComplete
    rw [if_neg hne]
  refine ⟨general, ?_, by decide, by decide, by decide⟩
  intro w st reqId res
  exact general _ _ _ (fun h => Option.noConfusion h)

/-- C8 (witness): a response for request 3 while the mutation tracks
request 5 is discarded without effect. -/
theorem helios_c8_witness :
    ((⟨none, none, ⟨some 5, 6, .idle⟩⟩ : ReaderState).tutor.currentReq ≠
      some 3) ∧
    onTutorResponse ⟨none, none, ⟨some 5, 6, .idle⟩⟩ 3 (.err (("boom").toList)) =
      ⟨none, none, ⟨some 5, 6, .idle⟩⟩ :=
  ⟨by decide, helios_c8.1 ⟨none, none, ⟨some 5, 6, .idle⟩⟩ 3
    (.err (("boom").toList)) (by decide)⟩

/-- C7 (witness): a selection whose anchor is a text node with no parent
element and whose focus is null maps to no segment, and the handler is a
strict no-op on the world and state; with the same orphaned anchor but
the focus inside segment 2, the context is created for segment 2. -/
theorem helios_c7_witness :
    (handleTextHighlight true (some ⟨0, 0, 0, 0, 800⟩) (fun _ => none)
        ⟨some ⟨false, ("ἄειδε").toList, some (.textNode none), none, 1, 0, 0⟩⟩
        ⟨none, none, ⟨none, 0, .idle⟩⟩ =
      (⟨some ⟨false, ("ἄειδε").toList, some (.textNode none), none, 1, 0, 0⟩⟩,
       ⟨none, none, ⟨none, 0, .idle⟩⟩)) ∧
    (handleTextHighlight true (some ⟨0, 0, 0, 0, 800⟩) (fun _ => none)
        ⟨some ⟨false, ("ἄειδε").toList, some (.textNode none),
          some (.textNode (some ⟨⟨some (some 2), some (("1.2").toList)⟩, []⟩)),
          1, 10, 20⟩⟩
        ⟨none, none, ⟨none, 0, .idle⟩⟩ =
      (⟨some ⟨false, ("ἄειδε").toList, some (.textNode none),
          some (.textNode (some ⟨⟨some (some 2), some (("1.2").toList)⟩, []⟩)),
          1, 10, 20⟩⟩,
       ⟨none, some ⟨("ἄειδε").toList, 2, ("1.2").toList, 18, 20, 800⟩,
        ⟨none, 0, .idle⟩⟩)) :=
  ⟨helios_c7_amended.1 true (some ⟨0, 0, 0, 0, 800⟩) (fun _ => none)
    ⟨some ⟨false, ("ἄειδε").toList, some (.textNode none), none, 1, 0, 0⟩⟩
    ⟨none, none, ⟨none, 0, .idle⟩⟩
    ⟨false, ("ἄειδε").toList, some (.textNode none), none, 1, 0, 0⟩
    rfl rfl (by decide) rfl rfl,
   helios_c7_amended.2.2 ⟨0, 0, 0, 0, 800⟩ (fun _ => none)
    ⟨some ⟨false, ("ἄειδε").toList, some (.textNode none),
      some (.textNode (some ⟨⟨some (some 2), some (("1.2").toList)⟩, []⟩)),
      1, 10, 20⟩⟩
    ⟨none, none, ⟨none, 0, .idle⟩⟩
    ⟨false, ("ἄειδε").toList, some (.textNode none),
      some (.textNode (some ⟨⟨some (some 2), some (("1.2").toList)⟩, []⟩)),
      1, 10, 20⟩
    ⟨⟨some (some 2), some (("1.2").toList)⟩, []⟩ 2
    rfl rfl (by decide) rfl rfl rfl (by decide)⟩

/-- Every piece of `splitCap`'s output respects the alternation
invariant, starting at a non-whitespace position. -/
theorem splitCap_alt (l : List Char) : AltParts true (splitCap l) := by
  induction l with
  | nil => exact ⟨rfl, trivial⟩
  | cons c cs ih =>
    show AltParts true
      (if isWsChar c then
        match splitCap cs with
        | [] :: s :: rest => [] :: (c :: s) :: rest
        | _ => [] :: [c] :: splitCap cs
      else
        match splitCap cs with
        | p :: rest => (c :: p) :: rest
        | [] => [[c]])
    by_cases hc : isWsChar c
    · rw [if_pos hc]
      match hp : splitCap cs with
      | [] =>
        exact ⟨rfl, ⟨List.cons_ne_nil _ _, by simp [hc]⟩, trivial⟩
      | [] :: [] =>
        rw [hp] at ih
        exact ⟨rfl, ⟨List.cons_ne_nil _ _, by simp [hc]⟩, ih⟩
      | (x :: p) :: rest =>
        rw [hp] at ih
        exact ⟨rfl, ⟨List.cons_ne_nil _ _, by simp [hc]⟩, ih⟩
      | [] :: s :: rest =>
        rw [hp] at ih
        have ih' : ((true : Bool) = true ∧ True) ∧
            ((s ≠ [] ∧ s.all isWsChar = true) ∧ AltParts true rest) := by
          exact ⟨⟨rfl, trivial⟩, ih.2⟩
        exact ⟨rfl, ⟨List.cons_ne_nil _ _, by
          simp only [List.all_cons, hc, Bool.true_and]
          exact ih'.2.1.2⟩, ih'.2.2⟩
    · rw [if_neg hc]
      match hp : splitCap cs with
      | [] => exact ⟨by simp [hc], trivial⟩
      | p :: rest =>
        rw [hp] at ih
        have ih' : p.all (fun c => !isWsChar c) = true ∧ AltParts false rest := ih
        exact ⟨by simp [List.all_cons, hc, ih'.1], ih'.2⟩


/-- Concatenating the pieces of `splitCap` restores the input. -/
theorem splitCap_flatten (l : List Char) : (splitCap l).flatten = l := by
  induction l with
  | nil => rfl
  | cons c cs ih =>
    show (if isWsChar c then
        match splitCap cs with
        | [] :: s :: rest => [] :: (c :: s) :: rest
        | _ => [] :: [c] :: splitCap cs
      else
        match splitCap cs with
        | p :: rest => (c :: p) :: rest
        | [] => [[c]]).flatten = c :: cs
    by_cases hc : isWsChar c
    · rw [if_pos hc]
      match hp : splitCap cs with
      | [] =>
        rw [hp] at ih
        simp only [List.flatten_cons, List.flatten_nil, List.nil_append,
          List.cons_append, List.append_nil] at ih ⊢
        rw [← ih]
      | [] :: [] =>
        rw [hp] at ih
        simp only [List.flatten_cons, List.flatten_nil, List.nil_append,
          List.cons_append, List.append_nil] at ih ⊢
        rw [← ih]
      | (x :: p) :: rest =>
        rw [hp] at ih
        simp only [List.flatten_cons, List.flatten_nil, List.nil_append,
          List.cons_append, List.append_nil] at ih ⊢
        rw [ih]
      | [] :: s :: rest =>
        rw [hp] at ih
        simp only [List.flatten_cons, List.flatten_nil, List.nil_append,
          List.cons_append, List.append_nil] at ih ⊢
        rw [ih]
    · rw [if_neg hc]
      match hp : splitCap cs with
      | [] =>
        rw [hp] at ih
        simp only [List.flatten_cons, List.flatten_nil, List.nil_append,
          List.cons_append, List.append_nil] at ih ⊢
        rw [← ih]
      | p :: rest =>
        rw [hp] at ih
        simp only [List.flatten_cons, List.flatten_nil, List.nil_append,
          List.cons_append, List.append_nil] at ih ⊢
        rw [ih]

/-- Membership consequence of the alternation invariant: every piece is
a non-empty whitespace run or whitespace-free. -/
theorem altParts_classify (parts : List (List Char)) :
    ∀ (b : Bool), AltParts b parts →
      ∀ p ∈ parts,
        (p ≠ [] ∧ p.all isWsChar = true) ∨ p.all (fun c => !isWsChar c) = true := by
  induction parts with
  | nil => intro b _ p hp; cases hp
  | cons q rest ih =>
    intro b halt p hp
    rcases List.mem_cons.mp hp with rfl | hp'
    · cases b with
      | true =>
        have h : p.all (fun c => !isWsChar c) = true ∧ AltParts false rest := halt
        exact Or.inr h.1
      | false =>
        have h : (p ≠ [] ∧ p.all isWsChar = true) ∧ AltParts true rest := halt
        exact Or.inl h.1
    · cases b with
      | true =>
        have h : q.all (fun c => !isWsChar c) = true ∧ AltParts false rest := halt
        exact ih false h.2 p hp'
      | false =>
        have h : (q ≠ [] ∧ q.all isWsChar = true) ∧ AltParts true rest := halt
        exact ih true h.2 p hp'

/-- Dropping only empty pieces, the tokenizer's token texts concatenate
to the same string as the raw pieces. -/
theorem tokensFlatten (parts : List (List Char)) :
    ((parts.filterMap (fun part =>
        if part.any isWsChar then some (Token.ws part)
        else if part.isEmpty then none
        else some (Token.word part))).map Token.text).flatten = parts.flatten := by
  induction parts with
  | nil => rfl
  | cons p rest ih =>
    by_cases h1 : p.any isWsChar
    · simp only [List.filterMap_cons, h1, if_pos, List.map_cons, List.flatten_cons]
      rw [ih]
      rfl
    · by_cases h2 : p.isEmpty
      · have hp : p = [] := by
          cases p with
          | nil => rfl
          | cons x xs => cases h2
        subst hp
        simp only [List.filterMap_cons, List.flatten_cons, List.nil_append]
        rw [← ih]
        rfl
      · simp only [List.filterMap_cons, List.flatten_cons]
        have hstep : (if p.any isWsChar then some (Token.ws p)
            else if p.isEmpty then none
            else some (Token.word p)) = some (Token.word p) := by
          rw [if_neg h1, if_neg h2]
        rw [hstep]
        simp only [List.map_cons, List.flatten_cons]
        rw [ih]
        rfl

/-- C4: the word tokenizer splits any input into tokens each tagged
whitespace or word — whitespace tokens are non-empty all-whitespace
runs, word tokens are non-empty and whitespace-free — and concatenating
all token texts in order reproduces the input exactly. -/
theorem helios_c4 (text : List Char) :
    ((renderWords text).map Token.text).flatten = text ∧
    (∀ t ∈ renderWords text,
      match t with
      | .ws s => s ≠ [] ∧ s.all isWsChar = true
      | .word s => s ≠ [] ∧ s.all (fun c => !isWsChar c) = true) := by
  constructor
  · show ((((splitCap text).filterMap _).map Token.text)).flatten = text
    rw [tokensFlatten, splitCap_flatten]
  · intro t ht
    rcases List.mem_filterMap.mp ht with ⟨part, hpart, hf⟩
    by_cases h1 : part.any isWsChar
    · rw [if_pos h1] at hf
      cases hf
      have hcl := altParts_classify (splitCap text) true (splitCap_alt text)
        part hpart
      rcases hcl with ⟨hne, hall⟩ | hall
      · exact ⟨hne, hall⟩
      · exfalso
        rcases List.any_eq_true.mp h1 with ⟨c, hcmem, hcw⟩
        have hc2 := List.all_eq_true.mp hall c hcmem
        rw [hcw] at hc2
        cases hc2
    · rw [if_neg h1] at hf
      by_cases h2 : part.isEmpty
      · rw [if_pos h2] at hf
        cases hf
      · rw [if_neg h2] at hf
        cases hf
        refine ⟨?_, ?_⟩
        · intro hne
          rw [hne] at h2
          exact h2 rfl
        · rw [List.all_eq_true]
          intro c hcmem
          have h3 : ∀ x ∈ part, ¬ isWsChar x = true :=
            List.any_eq_false.mp (Bool.eq_false_iff.mpr h1)
          have h4 : isWsChar c = false := Bool.eq_false_iff.mpr (h3 c hcmem)
          rw [h4]
          rfl

/-- C4 (witness): in the tokens of `" λόγος."` the word token `λόγος.`
occurs and is non-empty and whitespace-free. -/
theorem helios_c4_witness :
    (Token.word (("λόγος.").toList) ∈ renderWords ((" λόγος.").toList)) ∧
    (("λόγος.").toList ≠ [] ∧
      (("λόγος.").toList).all (fun c => !isWsChar c) = true) :=
  ⟨by decide, (helios_c4 ((" λόγος.").toList)).2
    (Token.word (("λόγος.").toList)) (by decide)⟩

/-- Trimming returns a sublist of the input. -/
theorem jsTrim_sublist (l : List Char) : List.Sublist (jsTrim l) l := by
  unfold jsTrim
  have h1 : List.Sublist (l.dropWhile isWsChar) l := List.dropWhile_sublist _
  have h2 : List.Sublist ((l.dropWhile isWsChar).reverse.dropWhile isWsChar)
      (l.dropWhile isWsChar).reverse := List.dropWhile_sublist _
  have h3 := h2.reverse
  rw [List.reverse_reverse] at h3
  exact h3.trans h1

/-- Trimming empties a string exactly when it is all whitespace. -/
theorem jsTrim_eq_nil_iff (l : List Char) :
    jsTrim l = [] ↔ ∀ c ∈ l, isWsChar c = true := by
  unfold jsTrim
  constructor
  · intro h c hc
    have h0 : (l.dropWhile isWsChar).reverse.dropWhile isWsChar = [] :=
      List.reverse_eq_nil_iff.mp h
    have h1 := List.dropWhile_eq_nil_iff.mp h0
    have h2 : ∀ x ∈ l.dropWhile isWsChar, isWsChar x = true :=
      fun x hx => h1 x (List.mem_reverse.mpr hx)
    rw [← List.takeWhile_append_dropWhile isWsChar l] at hc
    rcases List.mem_append.mp hc with ht | hd
    · exact List.mem_takeWhile_imp ht
    · exact h2 c hd
  · intro h
    have h0 : l.dropWhile isWsChar = [] :=
      List.dropWhile_eq_nil_iff.mpr (fun x hx => h x hx)
    rw [h0]
    rfl

/-- C5 (counterexample): the handler removes punctuation everywhere in
the token, not only at its ends — on the token `α.β` (interior period)
it reports `αβ`, while stripping the punctuation set from both ends and
trimming, as the claim words it, would report `α.β`. -/
theorem helios_c5_counterexample :
    handleWordClickReport (("α.β").toList) = some (("αβ").toList) ∧
    specStripReport (("α.β").toList) = some (("α.β").toList) ∧
    handleWordClickReport (("α.β").toList) ≠ specStripReport (("α.β").toList) := by
  refine ⟨by decide, by decide, by decide⟩

/-- C5 (amended): the click handler removes every occurrence of the
punctuation characters `. , ; : ! ? · [ ] ( )` anywhere in the token,
trims whitespace, and reports the result; if the result is empty no
click is emitted.  Clicking `" λόγος."` still reports `λόγος` and the
lone `·` emits nothing; any reported word is a non-empty,
punctuation-free sublist of the token, and nothing is reported exactly
when every character of the token is punctuation or whitespace. -/
theorem helios_c5_amended :
    (handleWordClickReport ((" λόγος.").toList) = some (("λόγος").toList)) ∧
    (handleWordClickReport (("·").toList) = none) ∧
    (∀ (word r : List Char), handleWordClickReport word = some r →
      r ≠ [] ∧ List.Sublist r word ∧ ∀ c ∈ r, isPunctChar c = false) ∧
    (∀ (word : List Char), handleWordClickReport word = none ↔
      ∀ c ∈ word, isPunctChar c = true ∨ isWsChar c = true) := by
  refine ⟨by decide, by decide, ?_, ?_⟩
  · intro word r hr
    unfold handleWordClickReport at hr
    by_cases he : (cleanWord word).isEmpty
    · rw [if_pos he] at hr
      cases hr
    · rw [if_neg he] at hr
      cases hr
      refine ⟨?_, ?_, ?_⟩
      · intro hne
        rw [hne] at he
        exact he rfl
      · exact (jsTrim_sublist _).trans (List.filter_sublist word)
      · intro c hc
        have hc2 : c ∈ word.filter (fun c => !isPunctChar c) :=
          (jsTrim_sublist _).subset hc
        have hc3 := (List.mem_filter.mp hc2).2
        cases hcase : isPunctChar c
        · rfl
        · rw [hcase] at hc3
          cases hc3
  · intro word
    constructor
    · intro hn c hc
      unfold handleWordClickReport at hn
      by_cases he : (cleanWord word).isEmpty
      · have h0 : cleanWord word = [] := by
          cases hq : cleanWord word with
          | nil => rfl
          | cons x xs =>
            rw [hq] at he
            cases he
        have h1 := (jsTrim_eq_nil_iff (word.filter (fun c => !isPunctChar c))).mp h0
        by_cases hpc : isPunctChar c = true
        · exact Or.inl hpc
        · refine Or.inr (h1 c (List.mem_filter.mpr ⟨hc, ?_⟩))
          have hpf : isPunctChar c = false := Bool.eq_false_iff.mpr hpc
          rw [hpf]
          rfl
      · rw [if_neg he] at hn
        cases hn
    · intro hall
      have h0 : cleanWord word = [] := by
        unfold cleanWord
        apply (jsTrim_eq_nil_iff _).mpr
        intro c hc
        have hcf := List.mem_filter.mp hc
        rcases hall c hcf.1 with hp | hw
        · exfalso
          have := hcf.2
          rw [hp] at this
          cases this
        · exact hw
      unfold handleWordClickReport
      rw [h0]
      rfl

/-- C5 (witness): the reported word for the token `" λόγος."` is
`λόγος`, a non-empty punctuation-free sublist of the token. -/
theorem helios_c5_witness :
    (handleWordClickReport ((" λόγος.").toList) = some (("λόγος").toList)) ∧
    ((("λόγος").toList) ≠ [] ∧
      List.Sublist (("λόγος").toList) ((" λόγος.").toList) ∧
      ∀ c ∈ (("λόγος").toList), isPunctChar c = false) :=
  ⟨by decide, helios_c5_amended.2.2.1 ((" λόγος.").toList) (("λόγος").toList)
    (by decide)⟩

end Helios
